import Mathlib

/-!
Verification of the pipe-demo program (src/parent.cpp): a parent process
talks to a spawned child over two unidirectional pipes.  The development
shallowly embeds the program's core: the non-blocking line assembler
GetLine (parent.cpp lines 121-155), the descriptor bookkeeping of
InitializeChild / InitializeParent (lines 72-119), and the duplex loop of
main (lines 166-216).
-/

namespace PipeDemo

/-- The newline byte, the line terminator tested by GetLine (c == a newline). -/
def NL : Nat := 10

/-- Value of the thread-local errno variable as far as GetLine inspects it:
either EAGAIN or anything else.  read(2) sets errno on a -1 return and
leaves it untouched on a 0 (end-of-stream) or positive return. -/
inductive ErrnoV where
  | eagain
  | other
deriving DecidableEq

/-- What the underlying read(2) on the non-blocking descriptor reports once
the bytes currently available have been consumed: -1 with errno EAGAIN
(no data right now), 0 with errno untouched (end of stream), or -1 with
some other errno (a real error). -/
inductive TermEvent where
  | wouldBlock
  | endOfStream
  | readError
deriving DecidableEq

/-- Errno after the terminating read, per POSIX read(2) semantics: a -1
return sets errno; a 0 (end-of-stream) return leaves errno unchanged. -/
def readErrno : TermEvent → ErrnoV → ErrnoV
  | TermEvent.wouldBlock, _ => ErrnoV.eagain
  | TermEvent.endOfStream, e => e
  | TermEvent.readError, _ => ErrnoV.other

/-- The byte-at-a-time while loop of GetLine (parent.cpp lines 143-149):
while read returns 1, push the byte onto the buffer and stop after pushing
a newline.  Returns (newline seen, final buffer, bytes left unconsumed). -/
def readLoop : List Nat → List Nat → Bool × List Nat × List Nat
  | [], buf => (false, buf, [])
  | c :: rest, buf =>
    if c = NL then (true, buf ++ [c], rest)
    else readLoop rest (buf ++ [c])

/-- Complete result of one GetLine call: the returned Bool, the error
out-parameter, the caller's buffer after the call, the static
needs_a_reset flag after the call, the bytes still pending on the
descriptor, and errno after the call. -/
structure GLResult where
  retval : Bool
  error : Bool
  buffer : List Nat
  needsReset : Bool
  pending : List Nat
  errno : ErrnoV
deriving DecidableEq

/-- GetLine (parent.cpp lines 121-155).  avail holds the bytes the
descriptor will deliver during this call and term what read reports once
they are exhausted; errnoIn is the value errno holds on entry, buffer the
caller's string, and needsReset the static needs_a_reset flag (initially
true).  The buffer is erased when the flag is set; bytes are consumed one
at a time until a newline or a non-1 read return; the error out-parameter
is set only when the final read returned at most 0 and errno is then not
EAGAIN. -/
def GetLine (avail : List Nat) (term : TermEvent) (errnoIn : ErrnoV)
    (buffer : List Nat) (needsReset : Bool) : GLResult :=
  let buf0 := if needsReset then [] else buffer
  let r := readLoop avail buf0
  if r.1 then
    { retval := true, error := false, buffer := r.2.1, needsReset := true,
      pending := r.2.2, errno := errnoIn }
  else
    { retval := false, error := decide (readErrno term errnoIn ≠ ErrnoV.eagain),
      buffer := r.2.1, needsReset := false,
      pending := r.2.2, errno := readErrno term errnoIn }

/-- State threaded through successive GetLine calls on one healthy channel:
the bytes pending in the pipe, the caller's buffer, and the shared static
needs_a_reset flag. -/
structure RunState where
  pending : List Nat
  buffer : List Nat
  needsReset : Bool
deriving DecidableEq

/-- State at program start: empty pipe, empty caller buffer (string buffer
in main), needs_a_reset statically initialized to true. -/
def initState : RunState := ⟨[], [], true⟩

/-- The portion of the buffer that will actually be used by the next call:
empty when the pending reset will first erase it. -/
def effBuf (rs : RunState) : List Nat := if rs.needsReset then [] else rs.buffer

/-- One GetLine call on a live channel (read reports EAGAIN once drained):
chunk is the fresh bytes the child wrote since the previous call.  Returns
((retval, error out-parameter, buffer at return), successor state). -/
def callOn (rs : RunState) (chunk : List Nat) : (Bool × Bool × List Nat) × RunState :=
  let r := GetLine (rs.pending ++ chunk) TermEvent.wouldBlock ErrnoV.eagain
      rs.buffer rs.needsReset
  ((r.retval, r.error, r.buffer), ⟨r.pending, r.buffer, r.needsReset⟩)

/-- Successive GetLine calls, one per arrival chunk. -/
def runChunks : RunState → List (List Nat) → List (Bool × Bool × List Nat) × RunState
  | rs, [] => ([], rs)
  | rs, c :: cs =>
    let p := callOn rs c
    let q := runChunks p.2 cs
    (p.1 :: q.1, q.2)

/-- Further GetLine calls with no fresh input, until the pipe is drained
(fuel bounds the number of calls; pending shrinks at every step). -/
def drain : Nat → RunState → List (Bool × Bool × List Nat) × RunState
  | 0, rs => ([], rs)
  | fuel + 1, rs =>
    if rs.pending = [] then ([], rs)
    else
      let p := callOn rs []
      let q := drain fuel p.2
      (p.1 :: q.1, q.2)

/-- Deliver the chunks one call at a time starting from the program's
initial state, then keep calling until the pipe is drained. -/
def runAll (chunks : List (List Nat)) : List (Bool × Bool × List Nat) × RunState :=
  let p := runChunks initState chunks
  let q := drain p.2.pending.length p.2
  (p.1 ++ q.1, q.2)

/-- The lines a sequence of call outcomes reported: the buffer contents of
the calls that returned true. -/
def repsOf (os : List (Bool × Bool × List Nat)) : List (List Nat) :=
  os.filterMap (fun o => if o.1 then some o.2.2 else none)

/-- The single-call version of repsOf. -/
def repOf (o : Bool × Bool × List Nat) : List (List Nat) :=
  if o.1 then [o.2.2] else []

/-- All lines reported across a full delivery of the given chunks. -/
def reportedLines (chunks : List (List Nat)) : List (List Nat) :=
  repsOf (runAll chunks).1

/-- Reference splitter: the newline-terminated lines contained in a byte
sequence (each returned line keeps its terminating newline) and the
trailing bytes after the last newline. -/
def splitLines : List Nat → List (List Nat) × List Nat
  | [] => ([], [])
  | c :: rest =>
    let q := splitLines rest
    if c = NL then ([NL] :: q.1, q.2)
    else
      match q.1 with
      | [] => ([], c :: q.2)
      | l :: ls => ((c :: l) :: ls, q.2)

/-- Concatenation of the arrival chunks: the byte sequence the child sent. -/
def catChunks : List (List Nat) → List Nat
  | [] => []
  | c :: cs => c ++ catChunks cs

/-- Modulus of the uint64_t message counter in main. -/
def W64 : Nat := 2 ^ 64

/-- The outbound text main builds each iteration (parent.cpp lines
190-192): a stringstream receives the literal, the counter value in
decimal, and endl. -/
def mkMessage (c : Nat) : String := "Line: " ++ toString c ++ "\n"

/-- Parent-side state carried across iterations of the duplex loop:
message_counter (a uint64_t value), the string buffer, GetLine's static
needs_a_reset flag, and errno. -/
structure LoopState where
  counter : Nat
  buffer : List Nat
  needsReset : Bool
  errno : ErrnoV
deriving DecidableEq

/-- State on entering the loop: counter 0, empty buffer, reset flag set;
errno holds some non-EAGAIN value at startup. -/
def initLoop : LoopState := ⟨0, [], true, ErrnoV.other⟩

/-- Environment input consumed by one loop iteration: what the write call
returns (the code discards it), and what the from-child descriptor
delivers to GetLine. -/
structure IterInput where
  writeResult : Int
  avail : List Nat
  term : TermEvent
deriving DecidableEq

/-- An input for an iteration in which the child is alive but silent. -/
def dfltInput : IterInput := ⟨0, [], TermEvent.wouldBlock⟩

/-- Observable actions of one iteration, in program order. -/
inductive LoopEvent where
  | writeEv (msg : String)
  | pollEv (retval : Bool) (error : Bool)
deriving DecidableEq

/-- Everything one iteration of the loop produces. -/
structure IterOutput where
  txMessage : String
  rxLine : Option (List Nat)
  breaks : Bool
  events : List LoopEvent
deriving DecidableEq

/-- One iteration of the while loop in main (parent.cpp lines 187-208):
build the message from the counter and post-increment it (uint64_t, so
modulo 2^64), write it to the child (the return value of write is not
inspected), poll GetLine, display any complete line, and leave the loop
exactly when the error out-parameter is set. -/
def loopIter (ls : LoopState) (inp : IterInput) : IterOutput × LoopState :=
  let s := mkMessage ls.counter
  let g := GetLine inp.avail inp.term ls.errno ls.buffer ls.needsReset
  ({ txMessage := s,
     rxLine := if g.retval then some g.buffer else none,
     breaks := g.error,
     events := [LoopEvent.writeEv s, LoopEvent.pollEv g.retval g.error] },
   ⟨(ls.counter + 1) % W64, g.buffer, g.needsReset, g.errno⟩)

/-- The loop run on a list of per-iteration inputs, stopping after the
first iteration whose GetLine reports an error (the break in main).
Each trace entry records the state before, the iteration's outputs, and
the state after. -/
def loopRun : LoopState → List IterInput → List (LoopState × IterOutput × LoopState)
  | _, [] => []
  | ls, inp :: rest =>
    let p := loopIter ls inp
    if p.1.breaks then [(ls, p.1, p.2)]
    else (ls, p.1, p.2) :: loopRun p.2 rest

/-- The outbound text of iteration i of a run from the initial state. -/
def txAt (inputs : List IterInput) (i : Nat) : Option String :=
  ((loopRun initLoop inputs).get? i).map (fun e => e.2.1.txMessage)

/-- The counter value at the start of iteration i (the value embedded in
that iteration's outbound message). -/
def counterBeforeAt (inputs : List IterInput) (i : Nat) : Option Nat :=
  ((loopRun initLoop inputs).get? i).map (fun e => e.1.counter)

/-- The counter value after iteration i. -/
def counterAfterAt (inputs : List IterInput) (i : Nat) : Option Nat :=
  ((loopRun initLoop inputs).get? i).map (fun e => e.2.2.counter)

/-- The events of iteration i. -/
def eventsAt (inputs : List IterInput) (i : Nat) : Option (List LoopEvent) :=
  ((loopRun initLoop inputs).get? i).map (fun e => e.2.1.events)

/-- Which of the process's relevant descriptors are open: the four
original pipe descriptors, the child's standard streams after dup2, and
whether the from-child read end was set non-blocking. -/
structure ProcFds where
  toChildRead : Bool
  toChildWrite : Bool
  fromChildRead : Bool
  fromChildWrite : Bool
  stdinIsToChildRead : Bool
  stdoutIsFromChildWrite : Bool
  fromChildReadNonblocking : Bool
deriving DecidableEq

/-- Both images directly after fork: all four pipe descriptors open, the
standard streams not yet redirected. -/
def afterFork : ProcFds := ⟨true, true, true, true, false, false, false⟩

/-- InitializeChild (parent.cpp lines 72-100), descriptor effects only:
dup2 the to-child read end onto stdin and close it, dup2 the from-child
write end onto stdout and close it, then close the two parent-side ends. -/
def InitializeChild (fds : ProcFds) : ProcFds :=
  let a := { fds with stdinIsToChildRead := fds.toChildRead }
  let b := { a with toChildRead := false }
  let c := { b with stdoutIsFromChildWrite := b.fromChildWrite }
  let d := { c with fromChildWrite := false }
  { d with toChildWrite := false, fromChildRead := false }

/-- InitializeParent (parent.cpp lines 102-119): close the to-child read
end and the from-child write end, then set O_NONBLOCK on the from-child
read end. -/
def InitializeParent (fds : ProcFds) : ProcFds :=
  let a := { fds with toChildRead := false }
  let b := { a with fromChildWrite := false }
  { b with fromChildReadNonblocking := true }

/-- How many pipe descriptors the process holds open (original ends plus
the standard streams that dup2 bound to pipe ends). -/
def openPipeFds (fds : ProcFds) : Nat :=
  (cond fds.toChildRead 1 0) + (cond fds.toChildWrite 1 0) +
  (cond fds.fromChildRead 1 0) + (cond fds.fromChildWrite 1 0) +
  (cond fds.stdinIsToChildRead 1 0) + (cond fds.stdoutIsFromChildWrite 1 0)

/-- The reading loop consumes everything and reports no line when no
newline is among the available bytes. -/
theorem readLoop_no_nl : ∀ (data buf : List Nat), NL ∉ data →
    readLoop data buf = (false, buf ++ data, []) := by
  intro data
  induction data with
  | nil => intro buf _; simp [readLoop]
  | cons c rest ih =>
    intro buf h
    have hc : ¬ c = NL := fun hcn => h (hcn ▸ List.mem_cons_self c rest)
    have hr : NL ∉ rest := fun hm => h (List.mem_cons_of_mem c hm)
    simp only [readLoop, if_neg hc, ih (buf ++ [c]) hr, List.append_assoc,
      List.singleton_append]

/-- The reading loop stops right after pushing the first newline and
leaves the following bytes unconsumed. -/
theorem readLoop_nl : ∀ (pre post buf : List Nat), NL ∉ pre →
    readLoop (pre ++ NL :: post) buf = (true, buf ++ pre ++ [NL], post) := by
  intro pre
  induction pre with
  | nil => intro post buf _; simp [readLoop]
  | cons c pre ih =>
    intro post buf h
    have hc : ¬ c = NL := fun hcn => h (hcn ▸ List.mem_cons_self c pre)
    have hr : NL ∉ pre := fun hm => h (List.mem_cons_of_mem c hm)
    rw [List.cons_append, readLoop, if_neg hc, ih post (buf ++ [c]) hr]
    simp

/-- Whatever the input, the reading loop only appends to the buffer it is
given. -/
theorem readLoop_extends : ∀ (data buf : List Nat),
    ∃ t, (readLoop data buf).2.1 = buf ++ t := by
  intro data
  induction data with
  | nil => intro buf; exact ⟨[], by simp [readLoop]⟩
  | cons c rest ih =>
    intro buf
    by_cases hc : c = NL
    · exact ⟨[c], by simp [readLoop, hc]⟩
    · obtain ⟨t, ht⟩ := ih (buf ++ [c])
      exact ⟨c :: t, by simp [readLoop, hc, ht]⟩

/-- Splitting a sequence with no newline yields no line and the sequence
itself as trailing remainder. -/
theorem splitLines_no_nl : ∀ (l : List Nat), NL ∉ l → splitLines l = ([], l) := by
  intro l
  induction l with
  | nil => intro _; rfl
  | cons c rest ih =>
    intro h
    have hc : ¬ c = NL := fun hcn => h (hcn ▸ List.mem_cons_self c rest)
    have hr : NL ∉ rest := fun hm => h (List.mem_cons_of_mem c hm)
    simp [splitLines, ih hr, hc]

/-- Splitting a sequence whose first newline closes the prefix pre yields
pre with its newline as the first line. -/
theorem splitLines_append_line : ∀ (pre post : List Nat), NL ∉ pre →
    splitLines (pre ++ NL :: post) =
      ((pre ++ [NL]) :: (splitLines post).1, (splitLines post).2) := by
  intro pre
  induction pre with
  | nil => intro post _; simp [splitLines]
  | cons c pre ih =>
    intro post h
    have hc : ¬ c = NL := fun hcn => h (hcn ▸ List.mem_cons_self c pre)
    have hr : NL ∉ pre := fun hm => h (List.mem_cons_of_mem c hm)
    simp [splitLines, ih post hr, hc]

/-- Every line produced by the splitter is a newline-free prefix followed
by the terminating newline. -/
theorem splitLines_mem_shape : ∀ (l x : List Nat), x ∈ (splitLines l).1 →
    ∃ pre, x = pre ++ [NL] ∧ NL ∉ pre := by
  intro l
  induction l with
  | nil => intro x hx; simp [splitLines] at hx
  | cons c rest ih =>
    intro x hx
    by_cases hc : c = NL
    · simp only [splitLines, if_pos hc] at hx
      rcases List.mem_cons.mp hx with h1 | h2
      · exact ⟨[], by simpa using h1, by simp⟩
      · exact ih x h2
    · simp only [splitLines, if_neg hc] at hx
      rcases hq : (splitLines rest).1 with _ | ⟨l0, ls⟩
      · rw [hq] at hx; simp at hx
      · rw [hq] at hx
        rcases List.mem_cons.mp hx with h1 | h2
        · obtain ⟨pre0, hpre0, hnl0⟩ := ih l0 (by rw [hq]; exact List.mem_cons_self l0 ls)
          refine ⟨c :: pre0, ?_, ?_⟩
          · simp [h1, hpre0]
          · intro hm
            rcases List.mem_cons.mp hm with h | h
            · exact hc h.symm
            · exact hnl0 h
        · exact ih x (by rw [hq]; exact List.mem_cons_of_mem l0 h2)

/-- A sequence containing a newline splits as a newline-free prefix, the
first newline, and the rest. -/
theorem first_nl_split : ∀ (l : List Nat), NL ∈ l →
    ∃ pre post, l = pre ++ NL :: post ∧ NL ∉ pre := by
  intro l
  induction l with
  | nil => intro h; simp at h
  | cons c rest ih =>
    intro h
    by_cases hc : c = NL
    · exact ⟨[], rest, by simp [hc], by simp⟩
    · have hm : NL ∈ rest := by
        rcases List.mem_cons.mp h with h1 | h2
        · exact absurd h1.symm hc
        · exact h2
      obtain ⟨pre, post, hsplit, hpre⟩ := ih hm
      refine ⟨c :: pre, post, by simp [hsplit], ?_⟩
      intro hmm
      rcases List.mem_cons.mp hmm with h1 | h2
      · exact hc h1.symm
      · exact hpre h2

/-- After any GetLine call the static needs_a_reset flag holds exactly the
value the call returned: it is switched on when a full line is reported
and is off otherwise. -/
theorem GetLine_needsReset_eq_retval (avail : List Nat) (term : TermEvent)
    (e : ErrnoV) (b : List Nat) (r : Bool) :
    (GetLine avail term e b r).needsReset = (GetLine avail term e b r).retval := by
  simp only [GetLine]
  split <;> (split <;> rfl)

/-- A call during which the descriptor only reports would-block never sets
the error out-parameter. -/
theorem GetLine_wouldBlock_no_error (avail : List Nat) (e : ErrnoV)
    (b : List Nat) (r : Bool) :
    (GetLine avail TermEvent.wouldBlock e b r).error = false := by
  simp only [GetLine]
  split <;> (split <;> simp [readErrno])

/-- A call on a live channel with no newline among the available bytes
reports nothing, accumulates everything, and leaves the pipe empty. -/
theorem callOn_no_nl (rs : RunState) (chunk : List Nat)
    (h : NL ∉ rs.pending ++ chunk) :
    callOn rs chunk =
      ((false, false, effBuf rs ++ (rs.pending ++ chunk)),
        ⟨[], effBuf rs ++ (rs.pending ++ chunk), false⟩) := by
  simp only [callOn, GetLine, effBuf]
  rw [readLoop_no_nl _ _ h]
  simp [readErrno]

/-- A call on a live channel whose available bytes contain a newline
consumes exactly through the first newline, reports the assembled line,
and switches the reset flag on. -/
theorem callOn_nl (rs : RunState) (chunk pre post : List Nat)
    (hsplit : rs.pending ++ chunk = pre ++ NL :: post) (hpre : NL ∉ pre) :
    callOn rs chunk =
      ((true, false, effBuf rs ++ pre ++ [NL]),
        ⟨post, effBuf rs ++ pre ++ [NL], true⟩) := by
  simp only [callOn, GetLine, effBuf]
  rw [hsplit, readLoop_nl pre post _ hpre]
  simp

/-- repsOf distributes over cons via repOf. -/
theorem repsOf_cons (o : Bool × Bool × List Nat) (os : List (Bool × Bool × List Nat)) :
    repsOf (o :: os) = repOf o ++ repsOf os := by
  by_cases h : o.1 <;> simp [repsOf, repOf, h]

/-- repsOf distributes over append. -/
theorem repsOf_append (a b : List (Bool × Bool × List Nat)) :
    repsOf (a ++ b) = repsOf a ++ repsOf b := by
  simp [repsOf, List.filterMap_append]

/-- The number of calls that returned true is the number of lines
reported. -/
theorem countP_eq_repsOf_length : ∀ (os : List (Bool × Bool × List Nat)),
    os.countP (fun o => o.1) = (repsOf os).length := by
  intro os
  induction os with
  | nil => rfl
  | cons o rest ih =>
    rw [repsOf_cons]
    by_cases h : o.1 = true
    · rw [List.countP_cons_of_pos _ _ (by simpa using h)]
      simp [repOf, h, ih]
    · rw [List.countP_cons_of_neg _ _ (by simpa using h)]
      simp [repOf, h, ih]

/-- Single-call simulation: one GetLine call on a live channel moves the
reported-lines ledger forward exactly as the reference splitter dictates,
keeps the unreported buffer newline-free, and shrinks (or empties) the
pipe. suffix stands for bytes the child will send later. -/
theorem callOn_sim (rs : RunState) (chunk suffix : List Nat) (hb : NL ∉ effBuf rs) :
    repOf (callOn rs chunk).1 ++
        (splitLines (effBuf (callOn rs chunk).2 ++ ((callOn rs chunk).2.pending ++ suffix))).1
      = (splitLines (effBuf rs ++ (rs.pending ++ (chunk ++ suffix)))).1
  ∧ (splitLines (effBuf (callOn rs chunk).2 ++ ((callOn rs chunk).2.pending ++ suffix))).2
      = (splitLines (effBuf rs ++ (rs.pending ++ (chunk ++ suffix)))).2
  ∧ NL ∉ effBuf (callOn rs chunk).2
  ∧ ((callOn rs chunk).2.pending = [] ∨
      (callOn rs chunk).2.pending.length < (rs.pending ++ chunk).length) := by
  by_cases hNL : NL ∈ rs.pending ++ chunk
  · obtain ⟨pre, post, hsplit, hpre⟩ := first_nl_split _ hNL
    rw [callOn_nl rs chunk pre post hsplit hpre]
    have hnm : NL ∉ effBuf rs ++ pre := by
      intro hm
      rcases List.mem_append.mp hm with h | h
      · exact hb h
      · exact hpre h
    have hkey : effBuf rs ++ (rs.pending ++ (chunk ++ suffix))
        = (effBuf rs ++ pre) ++ NL :: (post ++ suffix) := by
      rw [← List.append_assoc rs.pending chunk, hsplit]
      simp
    refine ⟨?_, ?_, ?_, ?_⟩
    · rw [hkey, splitLines_append_line _ _ hnm]
      simp [repOf, effBuf]
    · rw [hkey, splitLines_append_line _ _ hnm]
      simp [effBuf]
    · simp [effBuf]
    · right
      rw [hsplit]
      simp
      omega
  · rw [callOn_no_nl rs chunk hNL]
    have hnm : NL ∉ effBuf rs ++ (rs.pending ++ chunk) := by
      intro hm
      rcases List.mem_append.mp hm with h | h
      · exact hb h
      · exact hNL h
    refine ⟨?_, ?_, ?_, ?_⟩
    · simp [repOf, effBuf, List.append_assoc]
    · simp [effBuf, List.append_assoc]
    · simpa [effBuf] using hnm
    · left; rfl

/-- Multi-call simulation: delivering the chunks one call at a time keeps
the ledger of reported lines in step with the reference splitter. -/
theorem runChunks_sim (cs : List (List Nat)) : ∀ (rs : RunState) (suffix : List Nat),
    NL ∉ effBuf rs →
    repsOf (runChunks rs cs).1 ++
        (splitLines (effBuf (runChunks rs cs).2 ++ ((runChunks rs cs).2.pending ++ suffix))).1
      = (splitLines (effBuf rs ++ (rs.pending ++ (catChunks cs ++ suffix)))).1
  ∧ (splitLines (effBuf (runChunks rs cs).2 ++ ((runChunks rs cs).2.pending ++ suffix))).2
      = (splitLines (effBuf rs ++ (rs.pending ++ (catChunks cs ++ suffix)))).2
  ∧ NL ∉ effBuf (runChunks rs cs).2 := by
  induction cs with
  | nil =>
    intro rs suffix hb
    refine ⟨?_, ?_, ?_⟩ <;> simp [runChunks, repsOf, catChunks, hb]
  | cons c cs ih =>
    intro rs suffix hb
    have hc := callOn_sim rs c (catChunks cs ++ suffix) hb
    have hi := ih (callOn rs c).2 suffix hc.2.2.1
    simp only [runChunks]
    refine ⟨?_, ?_, ?_⟩
    · rw [repsOf_cons, List.append_assoc, hi.1, hc.1]
      simp [catChunks, List.append_assoc]
    · rw [hi.2.1, hc.2.1]
      simp [catChunks, List.append_assoc]
    · exact hi.2.2

/-- Draining simulation: calling GetLine with no fresh input until the
pipe is empty reports exactly the complete lines still sitting in the
pipe. -/
theorem drain_sim : ∀ (fuel : Nat) (rs : RunState), NL ∉ effBuf rs →
    rs.pending.length ≤ fuel →
    (drain fuel rs).2.pending = []
  ∧ repsOf (drain fuel rs).1 ++ (splitLines (effBuf (drain fuel rs).2)).1
      = (splitLines (effBuf rs ++ rs.pending)).1
  ∧ (splitLines (effBuf (drain fuel rs).2)).2 = (splitLines (effBuf rs ++ rs.pending)).2
  ∧ NL ∉ effBuf (drain fuel rs).2 := by
  intro fuel
  induction fuel with
  | zero =>
    intro rs hb hlen
    have hp : rs.pending = [] := List.eq_nil_of_length_eq_zero (Nat.le_zero.mp hlen)
    refine ⟨?_, ?_, ?_, ?_⟩ <;> simp [drain, repsOf, hp, hb]
  | succ fuel ih =>
    intro rs hb hlen
    by_cases hp : rs.pending = []
    · refine ⟨?_, ?_, ?_, ?_⟩ <;> simp [drain, hp, repsOf, hb]
    · simp only [drain, if_neg hp]
      have hc := callOn_sim rs [] [] hb
      have h1 : repOf (callOn rs []).1 ++
          (splitLines (effBuf (callOn rs []).2 ++ (callOn rs []).2.pending)).1
          = (splitLines (effBuf rs ++ rs.pending)).1 := by
        simpa using hc.1
      have h2 : (splitLines (effBuf (callOn rs []).2 ++ (callOn rs []).2.pending)).2
          = (splitLines (effBuf rs ++ rs.pending)).2 := by
        simpa using hc.2.1
      have hlen2 : (callOn rs []).2.pending.length ≤ fuel := by
        rcases hc.2.2.2 with h | h
        · simp [h]
        · simp only [List.append_nil] at h
          omega
      have hi := ih (callOn rs []).2 hc.2.2.1 hlen2
      refine ⟨hi.1, ?_, ?_, hi.2.2.2⟩
      · rw [repsOf_cons, List.append_assoc, hi.2.1, h1]
      · rw [hi.2.2.1, h2]

/-- Full-run simulation: across a complete delivery followed by a drain,
GetLine reports exactly the newline-terminated lines of the byte sequence
the child sent, in order and with terminators kept, and the trailing
newline-less remainder is what stays accumulated. -/
theorem runAll_sim (chunks : List (List Nat)) :
    reportedLines chunks = (splitLines (catChunks chunks)).1
  ∧ (runAll chunks).2.pending = []
  ∧ effBuf (runAll chunks).2 = (splitLines (catChunks chunks)).2
  ∧ NL ∉ effBuf (runAll chunks).2 := by
  have h0 : NL ∉ effBuf initState := by simp [effBuf, initState]
  have hr := runChunks_sim chunks initState [] h0
  have hr1 : repsOf (runChunks initState chunks).1 ++
      (splitLines (effBuf (runChunks initState chunks).2 ++
        (runChunks initState chunks).2.pending)).1
      = (splitLines (catChunks chunks)).1 := by
    simpa [initState, effBuf] using hr.1
  have hr2 : (splitLines (effBuf (runChunks initState chunks).2 ++
      (runChunks initState chunks).2.pending)).2
      = (splitLines (catChunks chunks)).2 := by
    simpa [initState, effBuf] using hr.2.1
  have hd := drain_sim (runChunks initState chunks).2.pending.length
      (runChunks initState chunks).2 hr.2.2 (le_refl _)
  have hqf : splitLines (effBuf (drain (runChunks initState chunks).2.pending.length
      (runChunks initState chunks).2).2)
      = ([], effBuf (drain (runChunks initState chunks).2.pending.length
          (runChunks initState chunks).2).2) :=
    splitLines_no_nl _ hd.2.2.2
  refine ⟨?_, ?_, ?_, ?_⟩
  · show repsOf (runAll chunks).1 = _
    simp only [runAll, repsOf_append]
    have hq : repsOf (drain (runChunks initState chunks).2.pending.length
        (runChunks initState chunks).2).1
        = (splitLines (effBuf (runChunks initState chunks).2 ++
            (runChunks initState chunks).2.pending)).1 := by
      have := hd.2.1
      rw [hqf] at this
      simpa using this
    rw [hq]
    exact hr1
  · simpa [runAll] using hd.1
  · show effBuf (runAll chunks).2 = _
    simp only [runAll]
    have := hd.2.2.1
    rw [hqf] at this
    simp at this
    rw [this, hr2]
  · simpa [runAll] using hd.2.2.2

/-- Trace spec of the duplex loop: at iteration i the counter holds
(start + i) modulo 2^64, the outbound text renders exactly that value,
and the counter afterwards is one more, modulo 2^64. -/
theorem loopRun_get_spec : ∀ (inputs : List IterInput) (ls : LoopState) (i : Nat),
    ls.counter < W64 → i < (loopRun ls inputs).length →
    ∃ e, (loopRun ls inputs).get? i = some e
      ∧ e.1.counter = (ls.counter + i) % W64
      ∧ e.2.1.txMessage = mkMessage ((ls.counter + i) % W64)
      ∧ e.2.2.counter = (ls.counter + i + 1) % W64 := by
  intro inputs
  induction inputs with
  | nil => intro ls i _ hi; simp [loopRun] at hi
  | cons inp rest ih =>
    intro ls i hc hi
    have hcnt : (loopIter ls inp).2.counter = (ls.counter + 1) % W64 := by
      simp [loopIter]
    match i with
    | 0 =>
      refine ⟨(ls, (loopIter ls inp).1, (loopIter ls inp).2), ?_, ?_, ?_, ?_⟩
      · by_cases hbr : (loopIter ls inp).1.breaks <;> simp [loopRun, hbr]
      · simp [Nat.mod_eq_of_lt hc]
      · simp [loopIter, Nat.mod_eq_of_lt hc]
      · simp [hcnt]
    | i + 1 =>
      by_cases hbr : (loopIter ls inp).1.breaks
      · simp [loopRun, hbr] at hi
      · have hlen : i < (loopRun (loopIter ls inp).2 rest).length := by
          simp [loopRun, hbr] at hi
          omega
        have hwpos : 0 < W64 := by norm_num [W64]
        have hc2 : (loopIter ls inp).2.counter < W64 := by
          rw [hcnt]; exact Nat.mod_lt _ hwpos
        obtain ⟨e, hget, h1, h2, h3⟩ := ih (loopIter ls inp).2 i hc2 hlen
        have hmod : ∀ k, ((ls.counter + 1) % W64 + k) % W64 = (ls.counter + (k + 1)) % W64 := by
          intro k
          rw [Nat.mod_add_mod]
          congr 1
          omega
        refine ⟨e, ?_, ?_, ?_, ?_⟩
        · simp only [loopRun, hbr, if_neg, Bool.false_eq_true, List.get?_cons_succ]
          simpa using hget
        · rw [h1, hcnt, hmod]
        · rw [h2, hcnt, hmod]
        · rw [h3, hcnt]
          have heq : (ls.counter + 1) % W64 + i + 1 = (ls.counter + 1) % W64 + (i + 1) := by
            omega
          rw [heq, hmod]
          congr 1

/-- While every iteration's descriptor merely reports would-block, the
loop never breaks: the run is as long as the supplied input list. -/
theorem loopRun_length_no_break : ∀ (inputs : List IterInput) (ls : LoopState),
    (∀ inp ∈ inputs, inp.term = TermEvent.wouldBlock) →
    (loopRun ls inputs).length = inputs.length := by
  intro inputs
  induction inputs with
  | nil => intro ls _; rfl
  | cons inp rest ih =>
    intro ls h
    have hterm : inp.term = TermEvent.wouldBlock := h inp (List.mem_cons_self _ _)
    have hbr : (loopIter ls inp).1.breaks = false := by
      simp only [loopIter]
      rw [hterm]
      exact GetLine_wouldBlock_no_error _ _ _ _
    simp [loopRun, hbr, ih (loopIter ls inp).2 (fun x hx => h x (List.mem_cons_of_mem _ hx))]

/-- Inputs describing a silent, healthy child are all would-block. -/
theorem replicate_wouldBlock (n : Nat) :
    ∀ inp ∈ List.replicate n dfltInput, inp.term = TermEvent.wouldBlock := by
  intro inp h
  rw [List.eq_of_mem_replicate h]
  rfl

/-- On a run against a silent healthy child, iteration i carries counter
value i modulo 2^64 and sends exactly that value. -/
theorem replicate_run_spec (n i : Nat) (h : i < n) :
    counterBeforeAt (List.replicate n dfltInput) i = some (i % W64)
  ∧ txAt (List.replicate n dfltInput) i = some (mkMessage (i % W64)) := by
  have hlen : (loopRun initLoop (List.replicate n dfltInput)).length = n := by
    rw [loopRun_length_no_break _ _ (replicate_wouldBlock n)]
    exact List.length_replicate n dfltInput
  have hc0 : initLoop.counter < W64 := by norm_num [initLoop, W64]
  obtain ⟨e, hget, h1, h2, _⟩ := loopRun_get_spec (List.replicate n dfltInput) initLoop i hc0
    (by rw [hlen]; exact h)
  constructor
  · unfold counterBeforeAt
    rw [hget]
    simp [h1, initLoop]
  · unfold txAt
    rw [hget]
    simp [h2, initLoop]

/-- Claim C1, settled as a code bug: the spec says an end-of-stream read
(0 bytes, no error) must make GetLine report the channel as failed so the
loop stops within one polling interval.  The code flags an error only when
errno is not EAGAIN after the final read, but a 0-byte read leaves errno
untouched, so after any ordinary empty poll (which sets errno to EAGAIN)
the child's end-of-stream is indistinguishable from no-data: GetLine
returns false with no error, main's break is not taken, and the loop keeps
polling for many intervals.  The last two conjuncts isolate the slip: the
end-of-stream report depends on the stale errno value. -/
theorem c1_eof_masked_by_stale_errno :
    ((loopIter ((loopIter initLoop ⟨0, [], TermEvent.wouldBlock⟩).2)
        ⟨0, [], TermEvent.endOfStream⟩).1).breaks = false
  ∧ ((loopIter ((loopIter initLoop ⟨0, [], TermEvent.wouldBlock⟩).2)
        ⟨0, [], TermEvent.endOfStream⟩).1).rxLine = none
  ∧ (loopRun initLoop [⟨0, [], TermEvent.wouldBlock⟩, ⟨0, [], TermEvent.endOfStream⟩,
        ⟨0, [], TermEvent.endOfStream⟩, ⟨0, [], TermEvent.endOfStream⟩]).length = 4
  ∧ (GetLine [] TermEvent.endOfStream ErrnoV.eagain [] false).error = false
  ∧ (GetLine [] TermEvent.endOfStream ErrnoV.other [] false).error = true := by
  decide

/-- Claim C2: a GetLine call that finds zero bytes available after a call
which reported no line returns false with no error and leaves the
caller's buffer and all state exactly as they were (first conjunct; the
reset flag being clear encodes that the previous call returned false);
the reset flag after any call equals that call's return value, so the
buffer is erased exactly at the first call after a reported line (second
conjunct) and with the flag clear the buffer is only ever extended
(third conjunct); the flag is initially set, but erasing the empty
buffer main starts with changes nothing (fourth conjunct). -/
theorem c2_nodata_preserves_buffer :
    (∀ (rs : RunState) (chunk : List Nat), rs.pending ++ chunk = [] →
        rs.needsReset = false → callOn rs chunk = ((false, false, rs.buffer), rs))
  ∧ (∀ (rs : RunState) (chunk : List Nat),
        (callOn rs chunk).2.needsReset = (callOn rs chunk).1.1)
  ∧ (∀ (rs : RunState) (chunk : List Nat), rs.needsReset = false →
        ∃ t, (callOn rs chunk).2.buffer = rs.buffer ++ t)
  ∧ (∀ (avail : List Nat) (t : TermEvent) (e : ErrnoV),
        GetLine avail t e [] true = GetLine avail t e [] false) := by
  refine ⟨?_, ?_, ?_, ?_⟩
  · intro rs chunk h hn
    obtain ⟨hp, hch⟩ := List.append_eq_nil.mp h
    rw [callOn_no_nl rs chunk (by rw [h]; simp)]
    cases rs with
    | mk p b f => simp_all [effBuf]
  · intro rs chunk
    simp only [callOn]
    exact GetLine_needsReset_eq_retval _ _ _ _ _
  · intro rs chunk hn
    obtain ⟨t, ht⟩ := readLoop_extends (rs.pending ++ chunk) rs.buffer
    refine ⟨t, ?_⟩
    simp only [callOn, GetLine, hn]
    by_cases hr : (readLoop (rs.pending ++ chunk) rs.buffer).1 = true <;> simp [hr, ht]
  · intro avail t e
    simp [GetLine]

/-- Witness for claim C2 at concrete inputs: a no-data call on a clear
flag with accumulated byte 65 changes nothing, and a data-bearing call on
a clear flag only extends the accumulated bytes. -/
theorem c2_witness : callOn ⟨[], [65], false⟩ [] = ((false, false, [65]), ⟨[], [65], false⟩) :=
  c2_nodata_preserves_buffer.1 ⟨[], [65], false⟩ [] rfl rfl

/-- Claim C3 fails as stated: on the single-newline input 65, 10, 66 the
one reported line is the bytes preceding the newline plus the newline
itself, and the caller's buffer still holds that line (it is not empty)
right after the call that reported it. -/
theorem c3_counterexample :
    reportedLines [[65, 10, 66]] ≠ [[65]]
  ∧ reportedLines [[65, 10, 66]] = [[65, 10]]
  ∧ (callOn initState [65, 10, 66]).1.1 = true
  ∧ (callOn initState [65, 10, 66]).2.buffer = [65, 10] := by
  decide

/-- Claim C3 (amended): for every delivery whose bytes contain exactly one
newline, exactly one call returns true, the reported line is the bytes
preceding that newline followed by the terminating newline, and the
reporting call sets the reset flag so the buffer is cleared at the start
of the next call, before any new byte is appended. -/
theorem c3_single_newline :
    ∀ (chunks : List (List Nat)) (pre post : List Nat),
      catChunks chunks = pre ++ NL :: post → NL ∉ pre → NL ∉ post →
      reportedLines chunks = [pre ++ [NL]]
      ∧ (runAll chunks).1.countP (fun o => o.1) = 1
      ∧ (∀ (rs : RunState) (chunk : List Nat),
          (callOn rs chunk).1.1 = true → (callOn rs chunk).2.needsReset = true) := by
  intro chunks pre post hsplit hpre hpost
  have h := (runAll_sim chunks).1
  rw [hsplit, splitLines_append_line _ _ hpre, splitLines_no_nl _ hpost] at h
  have h2 : reportedLines chunks = [pre ++ [NL]] := h
  refine ⟨h2, ?_, ?_⟩
  · rw [countP_eq_repsOf_length]
    show (reportedLines chunks).length = 1
    rw [h2]
    rfl
  · intro rs chunk hr
    simp only [callOn] at hr ⊢
    rw [GetLine_needsReset_eq_retval]
    exact hr

/-- Witness for amended claim C3 at the concrete input 65, 10, 66. -/
theorem c3_witness : reportedLines [[65, 10, 66]] = [[65] ++ [NL]] :=
  (c3_single_newline [[65, 10, 66]] [65] [66] (by decide) (by decide) (by decide)).1

/-- Claim C4 fails as stated: an iteration in which the write reports
failure (returns -1) or a short count (3 of the 8 bytes of the message
built from counter 0) does not terminate the loop; the iteration even
advances the counter and carries on. -/
theorem c4_counterexample :
    ((loopIter initLoop ⟨-1, [], TermEvent.wouldBlock⟩).1).breaks = false
  ∧ ((loopIter initLoop ⟨3, [], TermEvent.wouldBlock⟩).1).breaks = false
  ∧ ((loopIter initLoop ⟨-1, [], TermEvent.wouldBlock⟩).2).counter = 1 := by
  decide

/-- Claim C4 (amended): the loop ignores the write's result entirely; an
iteration's outputs and successor state are identical for every possible
write return value, and the loop breaks exactly when GetLine's error
out-parameter is set, never because of the write. -/
theorem c4_write_result_ignored :
    ∀ (ls : LoopState) (inp : IterInput) (w : Int),
      loopIter ls ⟨w, inp.avail, inp.term⟩ = loopIter ls inp
      ∧ ((loopIter ls inp).1).breaks
          = (GetLine inp.avail inp.term ls.errno ls.buffer ls.needsReset).error := by
  intro ls inp w
  constructor
  · cases inp
    rfl
  · rfl

/-- Claim C5 fails as stated: message_counter is a uint64_t, so at
iteration 2^64 the counter has wrapped to 0: that iteration repeats
counter value 0 and outbound text of iteration 0, although 2^64 is not 0. -/
theorem c5_counterexample :
    txAt (List.replicate (W64 + 1) dfltInput) W64 = some (mkMessage 0)
  ∧ txAt (List.replicate (W64 + 1) dfltInput) 0 = some (mkMessage 0)
  ∧ counterBeforeAt (List.replicate (W64 + 1) dfltInput) W64 = some 0
  ∧ counterBeforeAt (List.replicate (W64 + 1) dfltInput) 0 = some 0
  ∧ mkMessage W64 ≠ mkMessage 0
  ∧ W64 ≠ 0 := by
  have hW := replicate_run_spec (W64 + 1) W64 (by omega)
  have h0 := replicate_run_spec (W64 + 1) 0 (by norm_num [W64])
  refine ⟨?_, ?_, ?_, ?_, ?_, ?_⟩
  · rw [hW.2, Nat.mod_self]
  · rw [h0.2, Nat.zero_mod]
  · rw [hW.1, Nat.mod_self]
  · rw [h0.1, Nat.zero_mod]
  · decide
  · norm_num [W64]

/-- Claim C5 (amended): at every iteration i of the loop the outbound text
is the literal, the counter value i modulo 2^64 in decimal, and a
newline; the counter starts at 0 and advances by one modulo 2^64 each
iteration, so among the first 2^64 iterations it equals i exactly and no
two of those iterations share a value. -/
theorem c5_counter_messages :
    ∀ (inputs : List IterInput) (i : Nat), i < (loopRun initLoop inputs).length →
      txAt inputs i = some (mkMessage (i % W64))
      ∧ counterBeforeAt inputs i = some (i % W64)
      ∧ counterAfterAt inputs i = some ((i + 1) % W64)
      ∧ (i < W64 → counterBeforeAt inputs i = some i) := by
  intro inputs i hi
  have hc0 : initLoop.counter < W64 := by norm_num [initLoop, W64]
  obtain ⟨e, hget, h1, h2, h3⟩ := loopRun_get_spec inputs initLoop i hc0 hi
  refine ⟨?_, ?_, ?_, ?_⟩
  · unfold txAt
    rw [hget]
    simp [h2, initLoop]
  · unfold counterBeforeAt
    rw [hget]
    simp [h1, initLoop]
  · unfold counterAfterAt
    rw [hget]
    simp [h3, initLoop]
  · intro hiw
    unfold counterBeforeAt
    rw [hget]
    simp [h1, initLoop, Nat.mod_eq_of_lt hiw]

/-- Witness for amended claim C5 at the first iteration of a one-step
run. -/
theorem c5_witness :
    txAt [dfltInput] 0 = some (mkMessage (0 % W64))
  ∧ counterBeforeAt [dfltInput] 0 = some (0 % W64)
  ∧ counterAfterAt [dfltInput] 0 = some ((0 + 1) % W64)
  ∧ (0 < W64 → counterBeforeAt [dfltInput] 0 = some 0) :=
  c5_counter_messages [dfltInput] 0 (by decide)

/-- Claim C6: delivering two newline-terminated segments in any chunking
produces exactly two true returns, the first reporting exactly the first
segment and the second exactly the second segment, in order (segments
carry their terminating newline, which GetLine keeps); moreover a single
call never consumes bytes past the first newline it appends: the bytes
after it stay pending. -/
theorem c6_two_lines :
    ∀ (chunks : List (List Nat)) (s1 s2 : List Nat),
      catChunks chunks = s1 ++ NL :: (s2 ++ [NL]) → NL ∉ s1 → NL ∉ s2 →
      reportedLines chunks = [s1 ++ [NL], s2 ++ [NL]]
      ∧ (runAll chunks).1.countP (fun o => o.1) = 2
      ∧ (∀ (rs : RunState) (chunk pre post : List Nat),
          rs.pending ++ chunk = pre ++ NL :: post → NL ∉ pre →
          (callOn rs chunk).2.pending = post) := by
  intro chunks s1 s2 hsplit h1 h2
  have h := (runAll_sim chunks).1
  rw [hsplit, splitLines_append_line _ _ h1] at h
  have hs2 : splitLines (s2 ++ [NL]) = ([s2 ++ [NL]], []) := by
    rw [show (s2 ++ [NL] : List Nat) = s2 ++ NL :: [] from rfl,
      splitLines_append_line s2 [] h2]
    rfl
  rw [hs2] at h
  have h3 : reportedLines chunks = [s1 ++ [NL], s2 ++ [NL]] := h
  refine ⟨h3, ?_, ?_⟩
  · rw [countP_eq_repsOf_length]
    show (reportedLines chunks).length = 2
    rw [h3]
    rfl
  · intro rs chunk pre post hs hp
    rw [callOn_nl rs chunk pre post hs hp]

/-- Witness for claim C6 at the concrete two-line delivery 65, 10 then
66, 10. -/
theorem c6_witness : reportedLines [[65, 10], [66, 10]] = [[65] ++ [NL], [66] ++ [NL]] :=
  (c6_two_lines [[65, 10], [66, 10]] [65] [66] (by decide) (by decide) (by decide)).1

/-- Claim C7: after role establishment the child has closed all four
original pipe descriptors and holds the two pipe ends rebound onto its
standard streams, the parent keeps exactly the to-child write end and the
(non-blocking) from-child read end, and each process therefore holds
exactly two relevant pipe descriptors instead of the four open right
after fork. -/
theorem c7_descriptor_invariant :
    InitializeChild afterFork = ⟨false, false, false, false, true, true, false⟩
  ∧ InitializeParent afterFork = ⟨false, true, true, false, false, false, true⟩
  ∧ openPipeFds (InitializeChild afterFork) = 2
  ∧ openPipeFds (InitializeParent afterFork) = 2
  ∧ openPipeFds afterFork = 4 := by
  decide

/-- Claim C8 fails as stated across all iterations: with the uint64_t
counter, iteration 1 writes counter value 1 while the later iteration
2^64 writes counter value 0, so outbound messages are not in strictly
ascending counter order once the counter wraps. -/
theorem c8_counterexample :
    (1 : Nat) < W64
  ∧ counterBeforeAt (List.replicate (W64 + 1) dfltInput) 1 = some 1
  ∧ counterBeforeAt (List.replicate (W64 + 1) dfltInput) W64 = some 0
  ∧ ¬ ((1 : Nat) < (0 : Nat)) := by
  refine ⟨by norm_num [W64], ?_, ?_, by omega⟩
  · have h := (replicate_run_spec (W64 + 1) 1 (by norm_num [W64])).1
    rw [h, Nat.mod_eq_of_lt (by norm_num [W64])]
  · have h := (replicate_run_spec (W64 + 1) W64 (by omega)).1
    rw [h, Nat.mod_self]

/-- Claim C8 (amended): within every iteration the write of the outbound
message precedes the GetLine poll (the iteration's event list is exactly
the write event followed by the poll event), and across the first 2^64
iterations the written counter values are strictly ascending; beyond
that the 64-bit counter wraps, so the order is ascending only modulo
2^64. -/
theorem c8_write_before_poll :
    (∀ (ls : LoopState) (inp : IterInput),
        ((loopIter ls inp).1).events
          = [LoopEvent.writeEv (mkMessage ls.counter),
             LoopEvent.pollEv
               (GetLine inp.avail inp.term ls.errno ls.buffer ls.needsReset).retval
               (GetLine inp.avail inp.term ls.errno ls.buffer ls.needsReset).error])
  ∧ (∀ (inputs : List IterInput) (i j : Nat), i < j →
        j < (loopRun initLoop inputs).length → j < W64 →
        ∃ ci cj, counterBeforeAt inputs i = some ci
          ∧ counterBeforeAt inputs j = some cj ∧ ci < cj) := by
  constructor
  · intro ls inp
    rfl
  · intro inputs i j hij hj hjW
    have hc0 : initLoop.counter < W64 := by norm_num [initLoop, W64]
    obtain ⟨ei, hgi, h1i, _, _⟩ := loopRun_get_spec inputs initLoop i hc0 (lt_trans hij hj)
    obtain ⟨ej, hgj, h1j, _, _⟩ := loopRun_get_spec inputs initLoop j hc0 hj
    refine ⟨i % W64, j % W64, ?_, ?_, ?_⟩
    · unfold counterBeforeAt
      rw [hgi]
      simp [h1i, initLoop]
    · unfold counterBeforeAt
      rw [hgj]
      simp [h1j, initLoop]
    · rw [Nat.mod_eq_of_lt (lt_trans hij hjW), Nat.mod_eq_of_lt hjW]
      exact hij

/-- Witness for amended claim C8: in a two-iteration run against a silent
child, iteration 0 writes a smaller counter than iteration 1. -/
theorem c8_witness :
    ∃ ci cj, counterBeforeAt [dfltInput, dfltInput] 0 = some ci
      ∧ counterBeforeAt [dfltInput, dfltInput] 1 = some cj ∧ ci < cj :=
  c8_write_before_poll.2 [dfltInput, dfltInput] 0 1 (by decide) (by decide) (by decide)

/-- Claim C9: every line GetLine reports across any delivery consists of a
newline-free prefix followed by exactly one newline, its final byte: no
embedded newlines, and the terminating newline is always kept. -/
theorem c9_reported_line_shape :
    ∀ (chunks : List (List Nat)) (l : List Nat), l ∈ reportedLines chunks →
      ∃ pre, l = pre ++ [NL] ∧ NL ∉ pre ∧ l.count NL = 1 := by
  intro chunks l hl
  rw [(runAll_sim chunks).1] at hl
  obtain ⟨pre, hpre, hnm⟩ := splitLines_mem_shape _ _ hl
  refine ⟨pre, hpre, hnm, ?_⟩
  rw [hpre, List.count_append, List.count_eq_zero.mpr hnm]
  simp

/-- Witness for claim C9 at the concrete reported line 72, 10. -/
theorem c9_witness :
    ∃ pre, ([72, 10] : List Nat) = pre ++ [NL] ∧ NL ∉ pre
      ∧ ([72, 10] : List Nat).count NL = 1 :=
  c9_reported_line_shape [[72, 10]] [72, 10] (by decide)

/-- Claim C10: the pending-reset flag is a single function-static boolean
shared by all callers and descriptors, initially true: any call entered
with the flag set (as the very first call is) discards the caller's
buffer entirely before reading (first conjunct); any call that reports a
line sets the flag (second conjunct); consequently, after channel A
completes a line, a call for channel B with its own partial buffer 66, 67
finds the shared flag set and loses those bytes (third conjunct), so the
line-assembly state of two channels is not independent. -/
theorem c10_shared_reset_flag :
    (∀ (avail : List Nat) (t : TermEvent) (e : ErrnoV) (b : List Nat),
        GetLine avail t e b true = GetLine avail t e [] true)
  ∧ (∀ (avail : List Nat) (t : TermEvent) (e : ErrnoV) (b : List Nat) (r : Bool),
        (GetLine avail t e b r).retval = true → (GetLine avail t e b r).needsReset = true)
  ∧ ((GetLine [65, NL] TermEvent.wouldBlock ErrnoV.eagain [] true).retval = true
     ∧ (GetLine [] TermEvent.wouldBlock ErrnoV.eagain [66, 67]
          (GetLine [65, NL] TermEvent.wouldBlock ErrnoV.eagain [] true).needsReset).buffer
        = []) := by
  refine ⟨?_, ?_, ?_, ?_⟩
  · intro avail t e b
    simp [GetLine]
  · intro avail t e b r h
    rw [GetLine_needsReset_eq_retval, h]
  · decide
  · decide

/-- Witness for claim C10: a call that assembled a full line (buffer held
byte 70, input is a lone newline) leaves the shared flag set. -/
theorem c10_witness :
    (GetLine [NL] TermEvent.wouldBlock ErrnoV.eagain [70] true).needsReset = true :=
  c10_shared_reset_flag.2.1 [NL] TermEvent.wouldBlock ErrnoV.eagain [70] true (by decide)

end PipeDemo
